import Mathlib

/-!
Verification development for the blog synchronization pipeline
(`scripts/sync-blog.ts`).  Strings are modelled as `List Char` (one entry
per UTF-16 code unit; all characters of interest are in the Basic
Multilingual Plane, where code units and code points coincide).  The
JavaScript regular-expression replacements of the text normalizer are
embedded as single-pass scanners that implement the exact leftmost-match /
lazy-quantifier semantics of the corresponding patterns.
-/

/-- The backtick character, written via its code point. -/
def backtick : Char := Char.ofNat 96

/-- CJK characters as matched by the source pattern `[一-龥]`. -/
def isCJK (c : Char) : Bool := 0x4e00 ≤ c.toNat && c.toNat ≤ 0x9fa5

/-- The JavaScript `\s` character class (WhiteSpace and LineTerminator). -/
def isJsSpace (c : Char) : Bool :=
  c = ' ' || c = '\t' || c = '\n' || c = Char.ofNat 0x0b || c = Char.ofNat 0x0c ||
  c = Char.ofNat 0x0d || c = Char.ofNat 0xa0 || c = Char.ofNat 0x1680 ||
  (0x2000 ≤ c.toNat && c.toNat ≤ 0x200a) ||
  c = Char.ofNat 0x2028 || c = Char.ofNat 0x2029 || c = Char.ofNat 0x202f ||
  c = Char.ofNat 0x205f || c = Char.ofNat 0x3000 || c = Char.ofNat 0xfeff

/-- JavaScript line terminators: the characters NOT matched by `.` in a regex. -/
def isLineTerm (c : Char) : Bool :=
  c = '\n' || c = Char.ofNat 0x0d || c = Char.ofNat 0x2028 || c = Char.ofNat 0x2029

/-- Characters of the `[*_]` class of the emphasis pattern. -/
def isEmChar (c : Char) : Bool := c = '*' || c = '_'

/-- Scanner for `replace(/```[\s\S]*?```/g, '')` (fenced code blocks).
`st = none`: outside a block, `run` counts the current streak of backticks
(0–2); the third consecutive backtick opens a block.  `st = some acc`:
inside a block, `acc` is the buffered content (reversed) and `run` counts
backticks toward the lazily matched closing fence.  An unterminated opening
fence matches nothing, so at the end of input the buffer is emitted
verbatim. -/
def codeBlocksAux (st : Option (List Char)) (run : Nat) : List Char → List Char
  | [] =>
    match st with
    | none => List.replicate run backtick
    | some acc =>
      backtick :: backtick :: backtick :: (acc.reverse ++ List.replicate run backtick)
  | c :: rest =>
    if c = backtick then
      match st with
      | none =>
        if run = 2 then codeBlocksAux (some []) 0 rest
        else codeBlocksAux none (run + 1) rest
      | some acc =>
        if run = 2 then codeBlocksAux none 0 rest
        else codeBlocksAux (some acc) (run + 1) rest
    else
      match st with
      | none => List.replicate run backtick ++ c :: codeBlocksAux none 0 rest
      | some acc => codeBlocksAux (some (c :: (List.replicate run backtick ++ acc))) 0 rest

/-- `content.replace(/```[\s\S]*?```/g, '')`. -/
def removeCodeBlocks (s : List Char) : List Char := codeBlocksAux none 0 s

/-- Scanner for `replace(/`[^`]*`/g, '')` (inline code).  `st = some acc`
buffers the characters (reversed) seen since an opening backtick; the next
backtick closes the span and the whole match is dropped.  An unmatched
opening backtick is emitted verbatim at the end of input. -/
def inlineCodeAux (st : Option (List Char)) : List Char → List Char
  | [] =>
    match st with
    | none => []
    | some acc => backtick :: acc.reverse
  | c :: rest =>
    if c = backtick then
      match st with
      | none => inlineCodeAux (some []) rest
      | some _ => inlineCodeAux none rest
    else
      match st with
      | none => c :: inlineCodeAux none rest
      | some acc => inlineCodeAux (some (c :: acc)) rest

/-- `content.replace(/`[^`]*`/g, '')`. -/
def removeInlineCode (s : List Char) : List Char := inlineCodeAux none s

/-- State of the image/link scanners: outside any candidate match, after the
opening `![` / `[` seeking `](`, or after `](` seeking `)`.  Buffers hold the
candidate's characters (reversed, without the opening marker) so that a
failed candidate can be emitted verbatim. -/
inductive LinkState where
  | normal : LinkState
  | seekBP : List Char → LinkState
  | seekP : List Char → LinkState

/-- Scanner for `replace(/!\[.*?\]\(.*?\)/g, '')` (images).  `.` does not
match line terminators, so a candidate dies at a line terminator or the end
of input; since the lazy quantifiers always commit to the first `](` and the
first `)` inside the terminator-free span, and a failed candidate region can
contain no other match of the pattern, the failed candidate is emitted
verbatim and scanning resumes in the normal state. -/
def imageAux : LinkState → List Char → List Char
  | .normal, [] => []
  | .normal, '!' :: '[' :: rest => imageAux (.seekBP []) rest
  | .normal, c :: rest => c :: imageAux .normal rest
  | .seekBP buf, [] => '!' :: '[' :: buf.reverse
  | .seekBP buf, ']' :: '(' :: rest => imageAux (.seekP ('(' :: ']' :: buf)) rest
  | .seekBP buf, c :: rest =>
    if isLineTerm c then '!' :: '[' :: buf.reverse ++ c :: imageAux .normal rest
    else imageAux (.seekBP (c :: buf)) rest
  | .seekP buf, [] => '!' :: '[' :: buf.reverse
  | .seekP _, ')' :: rest => imageAux .normal rest
  | .seekP buf, c :: rest =>
    if isLineTerm c then '!' :: '[' :: buf.reverse ++ c :: imageAux .normal rest
    else imageAux (.seekP (c :: buf)) rest

/-- `content.replace(/!\[.*?\]\(.*?\)/g, '')`. -/
def removeImages (s : List Char) : List Char := imageAux .normal s

/-- Scanner for `replace(/\[.*?\]\(.*?\)/g, '')` (links); identical to the
image scanner except that the opener is a single `[`. -/
def linkAux : LinkState → List Char → List Char
  | .normal, [] => []
  | .normal, '[' :: rest => linkAux (.seekBP []) rest
  | .normal, c :: rest => c :: linkAux .normal rest
  | .seekBP buf, [] => '[' :: buf.reverse
  | .seekBP buf, ']' :: '(' :: rest => linkAux (.seekP ('(' :: ']' :: buf)) rest
  | .seekBP buf, c :: rest =>
    if isLineTerm c then '[' :: buf.reverse ++ c :: linkAux .normal rest
    else linkAux (.seekBP (c :: buf)) rest
  | .seekP buf, [] => '[' :: buf.reverse
  | .seekP _, ')' :: rest => linkAux .normal rest
  | .seekP buf, c :: rest =>
    if isLineTerm c then '[' :: buf.reverse ++ c :: linkAux .normal rest
    else linkAux (.seekP (c :: buf)) rest

/-- `content.replace(/\[.*?\]\(.*?\)/g, '')`. -/
def removeLinks (s : List Char) : List Char := linkAux .normal s

/-- Scanner for `replace(/#{1,6}\s/g, '')` (heading markers).  `pending`
counts the current streak of `#`.  A streak of `m` hashes followed by a
whitespace character matches greedily at the latest feasible position: the
last `min m 6` hashes and the whitespace are removed and the first `m - 6`
hashes (if any) survive; a streak not followed by whitespace survives
entirely. -/
def headingsAux (pending : Nat) : List Char → List Char
  | [] => List.replicate pending '#'
  | c :: rest =>
    if c = '#' then headingsAux (pending + 1) rest
    else if pending = 0 then c :: headingsAux 0 rest
    else if isJsSpace c then List.replicate (pending - 6) '#' ++ headingsAux 0 rest
    else List.replicate pending '#' ++ c :: headingsAux 0 rest

/-- `content.replace(/#{1,6}\s/g, '')`. -/
def removeHeadings (s : List Char) : List Char := headingsAux 0 s

/-- State of the emphasis scanner: outside a candidate (`normal`); just
after a single opening marker, length of the opener still undecided
(`em0`, remembering the marker); inside a candidate opened by a single
marker (`em1`) or a double marker (`em2`); or just after a length-1 close,
where a second marker (greedy closing quantifier) would still be absorbed
(`eatEm`).  Buffers hold the lazily grown middle (reversed); the middle
never contains a marker character, because a marker always closes the
match. -/
inductive EmState where
  | normal : EmState
  | em0 : Char → EmState
  | em1 : Char → List Char → EmState
  | em2 : List Char → EmState
  | eatEm : EmState

/-- Scanner for `replace(/[*_]{1,2}(.*?)[*_]{1,2}/g, '$1')` (emphasis).
The opening quantifier is greedy (two markers if available), the middle is
lazy and cannot cross a line terminator, the closing quantifier is greedy.
When a double-opened candidate hits a line terminator or the end of input,
backtracking retries with a single opener and an empty middle, which closes
immediately on the second marker: the two markers are dropped and the
buffered middle contains no markers, so it is emitted directly.  A
single-opened candidate that fails is emitted verbatim. -/
def emphasisAux : EmState → List Char → List Char
  | .normal, [] => []
  | .normal, c :: rest =>
    if isEmChar c then emphasisAux (.em0 c) rest
    else c :: emphasisAux .normal rest
  | .em0 c1, [] => [c1]
  | .em0 c1, c :: rest =>
    if isEmChar c then emphasisAux (.em2 []) rest
    else if isLineTerm c then c1 :: c :: emphasisAux .normal rest
    else emphasisAux (.em1 c1 [c]) rest
  | .em1 c1 buf, [] => c1 :: buf.reverse
  | .em1 c1 buf, c :: rest =>
    if isEmChar c then buf.reverse ++ emphasisAux .eatEm rest
    else if isLineTerm c then c1 :: buf.reverse ++ c :: emphasisAux .normal rest
    else emphasisAux (.em1 c1 (c :: buf)) rest
  | .em2 buf, [] => buf.reverse
  | .em2 buf, c :: rest =>
    if isEmChar c then buf.reverse ++ emphasisAux .eatEm rest
    else if isLineTerm c then buf.reverse ++ c :: emphasisAux .normal rest
    else emphasisAux (.em2 (c :: buf)) rest
  | .eatEm, [] => []
  | .eatEm, c :: rest =>
    if isEmChar c then emphasisAux .normal rest
    else c :: emphasisAux .normal rest

/-- `content.replace(/[*_]{1,2}(.*?)[*_]{1,2}/g, '$1')`. -/
def removeEmphasis (s : List Char) : List Char := emphasisAux .normal s

/-- `content.replace(/\n/g, ' ')`. -/
def newlinesToSpaces (s : List Char) : List Char :=
  s.map (fun c => if c = '\n' then ' ' else c)

/-- The markup-stripping chain of `calculateReadingTime` (and of the
excerpt generator): code blocks, inline code, images, links, headings,
emphasis, then newlines, in source order. -/
def stripMarkdown (s : List Char) : List Char :=
  newlinesToSpaces (removeEmphasis (removeHeadings (removeLinks (removeImages
    (removeInlineCode (removeCodeBlocks s))))))

/-- Count of CJK characters: `(plainText.match(/[一-龥]/g) || []).length`. -/
def cjkCount (s : List Char) : Nat := (s.filter isCJK).length

/-- `plainText.replace(/[一-龥]/g, '')`. -/
def removeCJK (s : List Char) : List Char := s.filter (fun c => !(isCJK c))

/-- Token counter behind `split(/\s+/).filter(word => word.length > 0).length`:
the number of non-empty fragments of a split on whitespace runs equals the
number of maximal non-whitespace runs.  `inw` records whether the previous
character was part of a word. -/
def countTokens (inw : Bool) : List Char → Nat
  | [] => 0
  | c :: rest =>
    if isJsSpace c then countTokens false rest
    else if inw then countTokens true rest
    else 1 + countTokens true rest

/-- `plainText.split(/\s+/).filter(word => word.length > 0).length`. -/
def countWords (s : List Char) : Nat := countTokens false s

/-- `calculateReadingTime` (sync-blog.ts lines 38–58): strip markup, count
CJK characters and remaining whitespace-separated words, then
`Math.max(1, Math.ceil(chineseChars / 200 + englishWords / 250))`.
The numeric expression is modelled with exact rational arithmetic. -/
def calculateReadingTime (content : List Char) : Nat :=
  let plainText := stripMarkdown content
  let chineseChars := cjkCount plainText
  let englishWords := countWords (removeCJK plainText)
  let readingTime : ℤ := ⌈(chineseChars : ℚ) / 200 + (englishWords : ℚ) / 250⌉
  (max 1 readingTime).toNat

/-- Suffix after the last path separator, as `path.basename` computes it for
ordinary file names. -/
def afterLastSlash (s : List Char) : List Char :=
  s.foldl (fun acc c => if c = '/' then [] else acc ++ [c]) []

/-- `path.basename(filename, '.md')`: the final path segment with a proper
`.md` suffix removed (node keeps the name unchanged when it is exactly the
extension). -/
def basenameMd (s : List Char) : List Char :=
  let b := afterLastSlash s
  if 3 < b.length ∧ b.drop (b.length - 3) = ['.', 'm', 'd'] then b.take (b.length - 3) else b

/-- Characters kept by the slug pattern `[a-z0-9一-龥]`. -/
def isSlugKeep (c : Char) : Bool :=
  ('a' ≤ c && c ≤ 'z') || ('0' ≤ c && c ≤ '9') || isCJK c

/-- `replace(/[^a-z0-9一-龥]/g, '-')`. -/
def slugReplace (c : Char) : Char := if isSlugKeep c then c else '-'

/-- Scanner for `replace(/\-+/g, '-')`: collapses every run of hyphens to a
single hyphen.  `prevHyphen` records whether the previous character was a
hyphen already emitted. -/
def collapseHyphensAux (prevHyphen : Bool) : List Char → List Char
  | [] => []
  | c :: rest =>
    if c = '-' then
      if prevHyphen then collapseHyphensAux true rest
      else '-' :: collapseHyphensAux true rest
    else c :: collapseHyphensAux false rest

/-- `replace(/\-+/g, '-')`. -/
def collapseHyphens (s : List Char) : List Char := collapseHyphensAux false s

/-- Drop one leading hyphen, if present. -/
def dropLeadHyphen : List Char → List Char
  | [] => []
  | c :: rest => if c = '-' then rest else c :: rest

/-- `replace(/^-|-$/g, '')`: one leading and one trailing hyphen removed. -/
def trimHyphens (s : List Char) : List Char :=
  ((dropLeadHyphen s).reverse |> dropLeadHyphen).reverse

/-- `generatePostId` (sync-blog.ts lines 65–71): basename without `.md`,
lowercased (ASCII case mapping), every character outside `[a-z0-9一-龥]`
replaced by a hyphen, hyphen runs collapsed, one leading/trailing hyphen
trimmed. -/
def generatePostId (filename : List Char) : List Char :=
  trimHyphens (collapseHyphens (((basenameMd filename).map Char.toLower).map slugReplace))

/-- JavaScript `String.prototype.trim` (both ends, `\s`-class characters). -/
def jsTrim (s : List Char) : List Char :=
  (((s.dropWhile isJsSpace).reverse).dropWhile isJsSpace).reverse

/-- The auto-generated excerpt of `parseMarkdownFile` (lines 100–111): strip
markup, trim, take the first 150 characters, and append `'...'` exactly when
the trimmed text is longer than 150 characters. -/
def autoExcerpt (content : List Char) : List Char :=
  let plainText := jsTrim (stripMarkdown content)
  plainText.take 150 ++ (if 150 < plainText.length then ['.', '.', '.'] else [])

/-- The excerpt selection of `parseMarkdownFile` (lines 98–112):
`frontMatter.excerpt || ''`, then the auto-generated excerpt when that is
falsy (absent or empty). -/
def excerptOf (fmExcerpt : Option (List Char)) (content : List Char) : List Char :=
  let excerpt := fmExcerpt.getD []
  if excerpt = [] then autoExcerpt content else excerpt

/-- Front matter as returned by the extractor: every recognized key may be
absent. -/
structure RawFrontMatter where
  title : Option (List Char)
  date : Option (List Char)
  excerpt : Option (List Char)
  tags : Option (List (List Char))
  featured : Option Bool
deriving DecidableEq

/-- The `BlogPost` record of sync-blog.ts. -/
structure BlogPost where
  id : List Char
  title : List Char
  date : List Char
  excerpt : List Char
  content : List Char
  tags : List (List Char)
  readingTime : Nat
  featured : Bool
deriving DecidableEq

/-- JavaScript truthiness of an optional string field: `undefined` and the
empty string are falsy. -/
def strTruthy : Option (List Char) → Bool
  | none => false
  | some s => !s.isEmpty

/-- `parseMarkdownFile` (sync-blog.ts lines 78–130) after front-matter
extraction: validation of the required `title`/`date` fields
(`!frontMatter.title || !frontMatter.date` skips with a warning), then
assembly of the record.  The returned pair is the produced record (absent on
skip) and whether the skip warning was emitted.  `filename` is the base name
of the file, as passed by the driver. -/
def parseMarkdownFile (filename : List Char) (fm : RawFrontMatter)
    (content : List Char) : Option BlogPost × Bool :=
  if !strTruthy fm.title || !strTruthy fm.date then (none, true)
  else
    (some {
      id := generatePostId filename
      title := fm.title.getD []
      date := fm.date.getD []
      excerpt := excerptOf fm.excerpt content
      content := content
      tags := fm.tags.getD []
      readingTime := calculateReadingTime content
      featured := fm.featured.getD false }, false)

/-- ASCII digit test. -/
def isDigit (c : Char) : Bool := '0' ≤ c && c ≤ '9'

/-- Numeric value of an ASCII digit. -/
def digitVal (c : Char) : Int := (c.toNat : Int) - 48

/-- Proleptic Gregorian leap-year rule, as used by ECMAScript dates. -/
def isLeapYear (y : Int) : Bool := (y % 4 = 0 && !(y % 100 = 0)) || y % 400 = 0

/-- Number of days of month `m` in year `y`. -/
def daysInMonth (y m : Int) : Int :=
  if m = 2 then (if isLeapYear y then 29 else 28)
  else if m = 4 || m = 6 || m = 9 || m = 11 then 30 else 31

/-- Days between a civil date and 1970-01-01 (Howard Hinnant's
`days_from_civil` algorithm, the standard inverse of ECMAScript's day
numbering). -/
def daysFromCivil (y m d : Int) : Int :=
  let y1 := y - (if m ≤ 2 then 1 else 0)
  let era := (if 0 ≤ y1 then y1 else y1 - 399) / 400
  let yoe := y1 - era * 400
  let mp := (m + 9) % 12
  let doy := (153 * mp + 2) / 5 + d - 1
  let doe := yoe * 365 + yoe / 4 - yoe / 100 + doy
  era * 146097 + doe - 719468

/-- `new Date(s).getTime()` for the ECMAScript Date Time String Format
restricted to calendar dates `YYYY-MM-DD` (the format the spec requires of
the `date` field), interpreted at UTC midnight; `none` models `NaN`
(an invalid date).  Other, implementation-defined date formats are treated
as invalid. -/
def jsDateValue : List Char → Option Int
  | [y1, y2, y3, y4, h1, m1, m2, h2, d1, d2] =>
    if h1 = '-' && h2 = '-' && [y1, y2, y3, y4, m1, m2, d1, d2].all isDigit then
      let y := 1000 * digitVal y1 + 100 * digitVal y2 + 10 * digitVal y3 + digitVal y4
      let m := 10 * digitVal m1 + digitVal m2
      let d := 10 * digitVal d1 + digitVal d2
      if 1 ≤ m ∧ m ≤ 12 ∧ 1 ≤ d ∧ d ≤ daysInMonth y m then
        some (86400000 * daysFromCivil y m d)
      else none
    else none
  | _ => none

/-- The sort comparator `(a, b) => new Date(b.date).getTime() - new
Date(a.date).getTime()` returns a positive number (so `a` must sort after
`b`).  A `NaN` comparator value (unparseable date) is neither positive nor
negative, so it imposes no ordering constraint. -/
def cmpGt (a b : BlogPost) : Bool :=
  match jsDateValue a.date, jsDateValue b.date with
  | some ta, some tb => 0 < tb - ta
  | _, _ => false

/-- Stable insertion of `x` into an already processed suffix: `x` stays
before the first element it does not strictly sort after.  Together with
`List.foldr` this models the specification-mandated stable sort. -/
def insertPostDesc (x : BlogPost) : List BlogPost → List BlogPost
  | [] => [x]
  | y :: ys => if cmpGt x y then y :: insertPostDesc x ys else x :: y :: ys

/-- The stable sort by the date comparator (used both by `sortPostsByDate`
and by the driver's `posts.sort(...)` at line 240). -/
def sortByDateCore (posts : List BlogPost) : List BlogPost :=
  posts.foldr insertPostDesc []

/-- `sortPostsByDate` (sync-blog.ts lines 203–205): sorts a copy
`[...posts]` of the input. -/
def sortPostsByDate (posts : List BlogPost) : List BlogPost := sortByDateCore posts

/-- The call `sortPostsByDate(posts)` as an operation on array states: the
first component is the returned array, the second the state of the caller's
array after the call.  The source sorts the spread copy `[...posts]` in
place, so the caller's array is returned unchanged. -/
def sortPostsByDateCall (posts : List BlogPost) : List BlogPost × List BlogPost :=
  (sortByDateCore posts, posts)

/-- Sortedness by publication date descending, in comparator terms: no
adjacent pair is strictly out of order. -/
def sortedDesc : List BlogPost → Bool
  | [] => true
  | [_] => true
  | x :: y :: rest => !cmpGt x y && sortedDesc (y :: rest)

/-- Insertion-order `Set.add`: append the tag if it is not present yet
(JavaScript `Set` keeps first-insertion order). -/
def insertTag (acc : List (List Char)) (t : List Char) : List (List Char) :=
  if t ∈ acc then acc else acc ++ [t]

/-- The `Set` built by `getAllTags` (lines 191–194): all tags of all posts,
first occurrence kept. -/
def collectTags (posts : List BlogPost) : List (List Char) :=
  posts.foldl (fun acc p => p.tags.foldl insertTag acc) []

/-- Lexicographic (UTF-16 code unit) strict order on strings, the order of
JavaScript's default `Array.prototype.sort` comparator. -/
def strLt : List Char → List Char → Bool
  | [], [] => false
  | [], _ :: _ => true
  | _ :: _, [] => false
  | a :: s, b :: t =>
    if a.toNat < b.toNat then true
    else if b.toNat < a.toNat then false
    else strLt s t

/-- Insertion into an ascending-sorted list of strings. -/
def insertSortedStr (x : List Char) : List (List Char) → List (List Char)
  | [] => [x]
  | y :: ys => if strLt y x then y :: insertSortedStr x ys else x :: y :: ys

/-- `Array.from(tags).sort()`: ascending lexicographic sort. -/
def sortStrings (l : List (List Char)) : List (List Char) :=
  l.foldr insertSortedStr []

/-- `getAllTags` (sync-blog.ts lines 190–196). -/
def getAllTags (posts : List BlogPost) : List (List Char) :=
  sortStrings (collectTags posts)

/-- Ascending lexicographic sortedness of adjacent pairs. -/
def sortedAscStr : List (List Char) → Bool
  | [] => true
  | [_] => true
  | x :: y :: rest => !strLt y x && sortedAscStr (y :: rest)

/-- Observable outcome of one run of the driver. -/
structure SyncResult where
  posts : List BlogPost
  warnings : Nat
  exitCode : Nat
deriving DecidableEq

/-- The driver `syncBlog` (sync-blog.ts lines 212–266) over a batch of
already-read documents `(basename, front matter, body)`: parse each file,
keep the produced records, sort them by date descending, and exit
successfully (the artifact write is modelled as succeeding; per-file skips
never change the exit status). `warnings` counts the skip warnings
emitted. -/
def syncBlog (docs : List (List Char × RawFrontMatter × List Char)) : SyncResult :=
  let parsed := docs.map (fun d => parseMarkdownFile d.1 d.2.1 d.2.2)
  let posts := parsed.filterMap Prod.fst
  { posts := sortByDateCore posts
    warnings := (parsed.filter Prod.snd).length
    exitCode := 0 }

/-- Characters allowed in a slug, hyphen included (the claim's character
class: the code's kept characters lie in `[a-z0-9]` or the CJK block
U+4E00–U+9FA5, a subrange of `\p{Han}`). -/
def isIdChar (c : Char) : Bool := isSlugKeep c || c = '-'

/-- No two consecutive hyphens occur in the list. -/
def noDoubleHyphen : List Char → Bool
  | [] => true
  | [_] => true
  | a :: b :: rest => !(a = '-' && b = '-') && noDoubleHyphen (b :: rest)

/-- Texts consisting solely of CJK characters. -/
def cjkOnly (s : List Char) : Bool := s.all isCJK

/-- ASCII letters and digits: the characters of space-delimited words. -/
def isAsciiWordChar (c : Char) : Bool :=
  (97 ≤ c.toNat && c.toNat ≤ 122) || (65 ≤ c.toNat && c.toNat ≤ 90) ||
  (48 ≤ c.toNat && c.toNat ≤ 57)

/-- Texts consisting solely of space-delimited words: ASCII word characters
and spaces. -/
def wordOnly (s : List Char) : Bool := s.all (fun c => isAsciiWordChar c || c = ' ')

/-- Characters on which every pass of the markup stripper is inert: no
backtick, bracket, bang, hash, emphasis marker, or line terminator. -/
def isBenign (c : Char) : Bool :=
  !(c = backtick || c = '[' || c = '!' || c = '#' || c = '*' || c = '_' ||
    isLineTerm c || c = '\n')

/-- Concrete record used by witnesses: dated 2024-02-01. -/
def samplePostA : BlogPost :=
  { id := ['p', 'a'], title := ['A'], date := "2024-02-01".toList,
    excerpt := ['a'], content := ['a'], tags := [['r', 'u', 'n']],
    readingTime := 1, featured := false }

/-- Concrete record used by witnesses: dated 2024-01-01. -/
def samplePostB : BlogPost :=
  { id := ['p', 'b'], title := ['B'], date := "2024-01-01".toList,
    excerpt := ['b'], content := ['b'], tags := [['f', 'u', 'n']],
    readingTime := 1, featured := true }

/-- Concrete front matter used by witnesses: `date` present, `title`
missing. -/
def sampleFrontMatterNoTitle : RawFrontMatter :=
  { title := none, date := some ("2024-01-15".toList), excerpt := none,
    tags := none, featured := none }

/-- Concrete front matter used by witnesses: `title` present, `date` the
empty string. -/
def sampleFrontMatterEmptyDate : RawFrontMatter :=
  { title := some ['R', 'u', 'n'], date := some [], excerpt := none,
    tags := none, featured := none }

theorem toNat_max_one (r : ℤ) : (max 1 r).toNat = max 1 r.toNat := by omega

theorem ceil_thousand (k : ℕ) : ⌈(k : ℚ) / 1000⌉ = (((k + 999) / 1000 : ℕ) : ℤ) := by
  obtain ⟨n, hn⟩ : ∃ n, (k + 999) / 1000 = n := ⟨_, rfl⟩
  rw [hn]
  have h1 : k ≤ 1000 * n := by omega
  have h2 : 1000 * n ≤ k + 999 := by omega
  rw [Int.ceil_eq_iff]
  constructor
  · rw [lt_div_iff₀ (by norm_num : (0:ℚ) < 1000)]
    have h2q : (1000 : ℚ) * n ≤ (k : ℚ) + 999 := by exact_mod_cast h2
    push_cast
    linarith
  · rw [div_le_iff₀ (by norm_num : (0:ℚ) < 1000)]
    have h1q : (k : ℚ) ≤ 1000 * n := by exact_mod_cast h1
    push_cast
    linarith

theorem ceil_rate_eq (c w : ℕ) :
    ⌈(c : ℚ) / 200 + (w : ℚ) / 250⌉ = (((5 * c + 4 * w + 999) / 1000 : ℕ) : ℤ) := by
  have h1 : (c : ℚ) / 200 + (w : ℚ) / 250 = ((5 * c + 4 * w : ℕ) : ℚ) / 1000 := by
    push_cast; ring
  rw [h1, ceil_thousand]

theorem calculateReadingTime_eq (content : List Char) :
    calculateReadingTime content =
      max 1 ((5 * cjkCount (stripMarkdown content) +
              4 * countWords (removeCJK (stripMarkdown content)) + 999) / 1000) := by
  unfold calculateReadingTime
  simp only [ceil_rate_eq, toNat_max_one, Int.toNat_natCast]

/-- C1: the reading-time estimator returns `max(1, ceil(cjkCount / 200 +
wordCount / 250))`, where `cjkCount` counts CJK characters of the
markup-stripped text and `wordCount` counts the non-empty
whitespace-separated tokens left after removing CJK characters; the result
is an integer `≥ 1` for every input, the empty string included. -/
theorem c1_reading_time_formula (content : List Char) :
    calculateReadingTime content =
      max 1 (Int.toNat ⌈(cjkCount (stripMarkdown content) : ℚ) / 200 +
             (countWords (removeCJK (stripMarkdown content)) : ℚ) / 250⌉)
    ∧ 1 ≤ calculateReadingTime content := by
  constructor
  · rw [calculateReadingTime_eq, ceil_rate_eq, Int.toNat_natCast]
  · rw [calculateReadingTime_eq]
    exact le_max_left 1 _

theorem slugReplace_isIdChar (c : Char) : isIdChar (slugReplace c) = true := by
  unfold slugReplace isIdChar
  split
  · rename_i h; simp [h]
  · decide

theorem map_slugReplace_all (s : List Char) : (s.map slugReplace).all isIdChar = true := by
  rw [List.all_eq_true]
  intro c hc
  rcases List.mem_map.mp hc with ⟨d, _, hd⟩
  rw [← hd]
  exact slugReplace_isIdChar d

theorem collapseHyphensAux_all (p : Char → Bool) (hp : p '-' = true) (s : List Char)
    (h : s.all p = true) : ∀ b, (collapseHyphensAux b s).all p = true := by
  induction s with
  | nil => intro b; rfl
  | cons c rest ih =>
    rw [List.all_cons, Bool.and_eq_true] at h
    intro b
    unfold collapseHyphensAux
    split
    · split
      · exact ih h.2 true
      · rw [List.all_cons, hp, Bool.true_and]
        exact ih h.2 true
    · rw [List.all_cons, h.1, Bool.true_and]
      exact ih h.2 false

theorem collapseHyphensAux_true_head (s : List Char) :
    (collapseHyphensAux true s).head? ≠ some '-' := by
  induction s with
  | nil => simp [collapseHyphensAux]
  | cons c rest ih =>
    unfold collapseHyphensAux
    split
    · simpa using ih
    · rename_i hc
      simp [hc]

theorem noDoubleHyphen_cons (c : Char) (l : List Char) :
    noDoubleHyphen (c :: l) = true ↔
      (¬(c = '-' ∧ l.head? = some '-')) ∧ noDoubleHyphen l = true := by
  cases l with
  | nil => simp [noDoubleHyphen]
  | cons d rest =>
    simp only [noDoubleHyphen, Bool.and_eq_true, List.head?_cons]
    constructor
    · rintro ⟨h1, h2⟩
      refine ⟨?_, h2⟩
      rintro ⟨hc, hd⟩
      injection hd with hd
      rw [hc, hd] at h1
      simp at h1
    · rintro ⟨h1, h2⟩
      refine ⟨?_, h2⟩
      by_cases hc : c = '-'
      · by_cases hd : d = '-'
        · exact absurd ⟨hc, by rw [hd]⟩ h1
        · simp [hd]
      · simp [hc]

theorem collapseHyphensAux_noDouble (s : List Char) :
    ∀ b, noDoubleHyphen (collapseHyphensAux b s) = true := by
  induction s with
  | nil => intro b; rfl
  | cons c rest ih =>
    intro b
    unfold collapseHyphensAux
    split
    · split
      · exact ih true
      · rw [noDoubleHyphen_cons]
        exact ⟨fun h => collapseHyphensAux_true_head rest h.2, ih true⟩
    · rename_i hc
      rw [noDoubleHyphen_cons]
      exact ⟨fun h => hc h.1, ih false⟩

theorem dropLeadHyphen_all (p : Char → Bool) (s : List Char) (h : s.all p = true) :
    (dropLeadHyphen s).all p = true := by
  cases s with
  | nil => rfl
  | cons c rest =>
    rw [List.all_cons, Bool.and_eq_true] at h
    simp only [dropLeadHyphen]
    split
    · exact h.2
    · rw [List.all_cons, h.1, Bool.true_and]
      exact h.2

theorem dropLeadHyphen_noDouble (s : List Char) (h : noDoubleHyphen s = true) :
    noDoubleHyphen (dropLeadHyphen s) = true := by
  cases s with
  | nil => rfl
  | cons c rest =>
    simp only [dropLeadHyphen]
    split
    · exact ((noDoubleHyphen_cons c rest).mp h).2
    · exact h

theorem dropLeadHyphen_head (s : List Char) (h : noDoubleHyphen s = true) :
    (dropLeadHyphen s).head? ≠ some '-' := by
  cases s with
  | nil => simp [dropLeadHyphen]
  | cons c rest =>
    simp only [dropLeadHyphen]
    split
    · rename_i hc
      intro hh
      exact ((noDoubleHyphen_cons c rest).mp h).1 ⟨hc, hh⟩
    · rename_i hc
      simp [hc]

theorem dropLeadHyphen_getLast (s : List Char) (h : s.getLast? ≠ some '-') :
    (dropLeadHyphen s).getLast? ≠ some '-' := by
  cases s with
  | nil => simpa [dropLeadHyphen] using h
  | cons c rest =>
    simp only [dropLeadHyphen]
    split
    · cases rest with
      | nil => simp
      | cons d rest2 =>
        rw [List.getLast?_cons_cons] at h
        exact h
    · exact h

theorem noDoubleHyphen_iff_chain (s : List Char) :
    noDoubleHyphen s = true ↔ List.Chain' (fun a b => ¬(a = '-' ∧ b = '-')) s := by
  induction s with
  | nil => simp [noDoubleHyphen]
  | cons c rest ih =>
    rw [noDoubleHyphen_cons, List.chain'_cons', ih]
    constructor
    · rintro ⟨h1, h2⟩
      refine ⟨fun y hy => ?_, h2⟩
      rintro ⟨hc, hy2⟩
      rw [Option.mem_def] at hy
      exact h1 ⟨hc, by rw [hy, hy2]⟩
    · rintro ⟨h1, h2⟩
      refine ⟨?_, h2⟩
      rintro ⟨hc, hh⟩
      cases rest with
      | nil => simp at hh
      | cons d rest2 =>
        rw [List.head?_cons] at hh
        injection hh with hh
        exact h1 d rfl ⟨hc, hh⟩

theorem noDoubleHyphen_reverse (s : List Char) (h : noDoubleHyphen s = true) :
    noDoubleHyphen s.reverse = true := by
  rw [noDoubleHyphen_iff_chain] at h ⊢
  rw [List.chain'_reverse]
  exact List.Chain'.imp (fun a b hab => fun hba => hab ⟨hba.2, hba.1⟩) h

theorem all_reverse_eq (p : Char → Bool) (s : List Char) :
    s.reverse.all p = s.all p := by
  simp [List.all_eq_true]

/-- C2 (counterexample): the claim requires every derived id to match
`[a-z0-9\p{Han}-]+`, hence to contain at least one character; but the
nonempty source filename `!.md` derives the empty id. -/
theorem c2_id_charset_counterexample :
    generatePostId (String.toList "!.md") = [] ∧ String.toList "!.md" ≠ [] := by
  constructor <;> decide

/-- C2 (amended): for every source filename the derived id consists solely
of characters from `[a-z0-9\p{Han}-]` (possibly zero of them) and contains
no leading hyphen, no trailing hyphen, and no two consecutive hyphens. -/
theorem c2_id_hyphen_invariants (filename : List Char) :
    (generatePostId filename).all isIdChar = true
    ∧ (generatePostId filename).head? ≠ some '-'
    ∧ (generatePostId filename).getLast? ≠ some '-'
    ∧ noDoubleHyphen (generatePostId filename) = true := by
  have hallw : (((basenameMd filename).map Char.toLower).map slugReplace).all isIdChar = true :=
    map_slugReplace_all _
  unfold generatePostId trimHyphens collapseHyphens
  have hallu := collapseHyphensAux_all isIdChar (by decide) _ hallw false
  have hndu := collapseHyphensAux_noDouble
    (((basenameMd filename).map Char.toLower).map slugReplace) false
  set u := collapseHyphensAux false (((basenameMd filename).map Char.toLower).map slugReplace)
    with hu
  set s1 := dropLeadHyphen u with hs1
  have h1all : s1.all isIdChar = true := dropLeadHyphen_all _ _ hallu
  have h1nd : noDoubleHyphen s1 = true := dropLeadHyphen_noDouble _ hndu
  have h1head : s1.head? ≠ some '-' := dropLeadHyphen_head _ hndu
  set r := s1.reverse with hr
  have hrall : r.all isIdChar = true := by rw [hr, all_reverse_eq]; exact h1all
  have hrnd : noDoubleHyphen r = true := noDoubleHyphen_reverse _ h1nd
  have hrlast : r.getLast? ≠ some '-' := by rw [hr, List.getLast?_reverse]; exact h1head
  set s2 := dropLeadHyphen r with hs2
  have h2all : s2.all isIdChar = true := dropLeadHyphen_all _ _ hrall
  have h2nd : noDoubleHyphen s2 = true := dropLeadHyphen_noDouble _ hrnd
  have h2head : s2.head? ≠ some '-' := dropLeadHyphen_head _ hrnd
  have h2last : s2.getLast? ≠ some '-' := dropLeadHyphen_getLast _ hrlast
  refine ⟨?_, ?_, ?_, ?_⟩
  · rw [all_reverse_eq]; exact h2all
  · rw [List.head?_reverse]; exact h2last
  · rw [List.getLast?_reverse]; exact h2head
  · exact noDoubleHyphen_reverse _ h2nd

/-- C2 (witness): the amended invariants evaluated at the concrete filename
`My Post.md`. -/
theorem c2_id_hyphen_invariants_witness :
    (generatePostId (String.toList "My Post.md")).all isIdChar = true
    ∧ (generatePostId (String.toList "My Post.md")).head? ≠ some '-'
    ∧ (generatePostId (String.toList "My Post.md")).getLast? ≠ some '-'
    ∧ noDoubleHyphen (generatePostId (String.toList "My Post.md")) = true :=
  c2_id_hyphen_invariants (String.toList "My Post.md")

/-- C3: the assembled record's excerpt is the explicitly supplied excerpt,
unchanged, when one is supplied (a non-empty value); otherwise it is the
first 150 characters of the trimmed normalized body text, with the ellipsis
marker `'...'` appended exactly when that text is strictly longer than 150
characters. -/
theorem c3_excerpt_selection (fmExcerpt : Option (List Char)) (content : List Char) :
    (∀ e, fmExcerpt = some e → e ≠ [] → excerptOf fmExcerpt content = e)
    ∧ ((fmExcerpt = none ∨ fmExcerpt = some []) →
        excerptOf fmExcerpt content =
          (jsTrim (stripMarkdown content)).take 150 ++
            (if 150 < (jsTrim (stripMarkdown content)).length then ['.', '.', '.'] else [])) := by
  constructor
  · intro e he hne
    subst he
    simp [excerptOf, hne]
  · rintro (h | h) <;> subst h <;> simp [excerptOf, autoExcerpt]

/-- C3 (witness): a supplied excerpt `hi` passes through unchanged, and an
absent excerpt is auto-generated from the body `x`. -/
theorem c3_excerpt_selection_witness :
    excerptOf (some ['h', 'i']) ['x'] = ['h', 'i']
    ∧ excerptOf none ['x'] = ['x'] := by
  constructor
  · exact (c3_excerpt_selection (some ['h', 'i']) ['x']).1 ['h', 'i'] rfl (by decide)
  · have h := (c3_excerpt_selection none ['x']).2 (Or.inl rfl)
    rw [h]; decide

/-- C4: a document whose front matter is missing the required `title` or
`date` field yields a warning and no record, and the batch continues: the
run over any batch extended with such a file produces the same records, one
more warning, and still exits with status `0`. -/
theorem c4_missing_required_field_skips (filename : List Char) (fm : RawFrontMatter)
    (content : List Char) (h : fm.title = none ∨ fm.date = none) :
    parseMarkdownFile filename fm content = (none, true)
    ∧ ∀ docs : List (List Char × RawFrontMatter × List Char),
        (syncBlog (docs ++ [(filename, fm, content)])).posts = (syncBlog docs).posts
        ∧ (syncBlog (docs ++ [(filename, fm, content)])).warnings = (syncBlog docs).warnings + 1
        ∧ (syncBlog (docs ++ [(filename, fm, content)])).exitCode = 0 := by
  have hskip : parseMarkdownFile filename fm content = (none, true) := by
    rcases h with h | h <;> simp [parseMarkdownFile, h, strTruthy]
  refine ⟨hskip, fun docs => ?_⟩
  refine ⟨?_, ?_, rfl⟩
  · simp [syncBlog, hskip]
  · simp [syncBlog, hskip]

/-- C4 (witness): one concrete file missing `title` produces zero records,
one warning, and exit status `0`. -/
theorem c4_missing_required_field_skips_witness :
    sampleFrontMatterNoTitle.title = none
    ∧ parseMarkdownFile ['a'] sampleFrontMatterNoTitle ['x'] = (none, true)
    ∧ (syncBlog [(['a'], sampleFrontMatterNoTitle, ['x'])]).posts = []
    ∧ (syncBlog [(['a'], sampleFrontMatterNoTitle, ['x'])]).warnings = 1
    ∧ (syncBlog [(['a'], sampleFrontMatterNoTitle, ['x'])]).exitCode = 0 := by
  have h := c4_missing_required_field_skips ['a'] sampleFrontMatterNoTitle ['x'] (Or.inl rfl)
  have h2 := h.2 []
  refine ⟨rfl, h.1, ?_, ?_, h2.2.2⟩
  · rw [show ([] : List (List Char × RawFrontMatter × List Char)) ++
        [(['a'], sampleFrontMatterNoTitle, ['x'])] =
        [(['a'], sampleFrontMatterNoTitle, ['x'])] from rfl] at h2
    rw [h2.1]; rfl
  · simpa using h2.2.1

/-- C9: an explicitly supplied empty-string excerpt is treated exactly as an
absent excerpt: the record's excerpt is auto-generated from the body. -/
theorem c9_empty_excerpt_treated_absent (content : List Char) :
    excerptOf (some []) content = excerptOf none content := by
  simp [excerptOf]

/-- C10: a front matter carrying `title` or `date` as the empty string is
skipped exactly as if the field were missing (the validation tests JavaScript
falsiness, not key presence): no record, one warning, and the outcome equals
that of the same front matter with the field absent. -/
theorem c10_empty_required_field_skips (filename : List Char) (fm : RawFrontMatter)
    (content : List Char) (h : fm.title = some [] ∨ fm.date = some []) :
    parseMarkdownFile filename fm content = (none, true)
    ∧ (fm.title = some [] →
        parseMarkdownFile filename { fm with title := none } content =
          parseMarkdownFile filename fm content)
    ∧ (fm.date = some [] →
        parseMarkdownFile filename { fm with date := none } content =
          parseMarkdownFile filename fm content) := by
  have hskip : parseMarkdownFile filename fm content = (none, true) := by
    rcases h with h | h <;> simp [parseMarkdownFile, h, strTruthy]
  refine ⟨hskip, fun ht => ?_, fun hd => ?_⟩
  · rw [hskip]; simp [parseMarkdownFile, ht, strTruthy]
  · rw [hskip]; simp [parseMarkdownFile, hd, strTruthy]

/-- C10 (witness): one concrete front matter with `date` supplied as the
empty string is skipped, and skipping agrees with the date-absent variant. -/
theorem c10_empty_required_field_skips_witness :
    sampleFrontMatterEmptyDate.date = some []
    ∧ parseMarkdownFile ['a'] sampleFrontMatterEmptyDate ['x'] = (none, true)
    ∧ parseMarkdownFile ['a'] { sampleFrontMatterEmptyDate with date := none } ['x'] =
        parseMarkdownFile ['a'] sampleFrontMatterEmptyDate ['x'] := by
  have h := c10_empty_required_field_skips ['a'] sampleFrontMatterEmptyDate ['x'] (Or.inr rfl)
  exact ⟨rfl, h.1, h.2.2 rfl⟩

theorem mem_insertTag (acc : List (List Char)) (t x : List Char) :
    x ∈ insertTag acc t ↔ x ∈ acc ∨ x = t := by
  unfold insertTag
  split
  · rename_i hmem
    constructor
    · exact Or.inl
    · rintro (h | h)
      · exact h
      · rwa [h]
  · simp

theorem insertTag_nodup (acc : List (List Char)) (t : List Char) (h : acc.Nodup) :
    (insertTag acc t).Nodup := by
  unfold insertTag
  split
  · exact h
  · rename_i hmem
    simpa [List.nodup_append] using ⟨h, hmem⟩

theorem mem_foldl_insertTag (tags : List (List Char)) (acc : List (List Char)) (x : List Char) :
    x ∈ tags.foldl insertTag acc ↔ x ∈ acc ∨ x ∈ tags := by
  induction tags generalizing acc with
  | nil => simp
  | cons t ts ih =>
    simp only [List.foldl_cons, ih, mem_insertTag, List.mem_cons]
    tauto

theorem foldl_insertTag_nodup (tags : List (List Char)) (acc : List (List Char))
    (h : acc.Nodup) : (tags.foldl insertTag acc).Nodup := by
  induction tags generalizing acc with
  | nil => exact h
  | cons t ts ih => exact ih _ (insertTag_nodup acc t h)

theorem mem_collectTags (posts : List BlogPost) (x : List Char) :
    x ∈ collectTags posts ↔ ∃ p ∈ posts, x ∈ p.tags := by
  unfold collectTags
  suffices h : ∀ acc : List (List Char),
      x ∈ posts.foldl (fun acc p => p.tags.foldl insertTag acc) acc ↔
        x ∈ acc ∨ ∃ p ∈ posts, x ∈ p.tags by
    simpa using h []
  induction posts with
  | nil => simp
  | cons p ps ih =>
    intro acc
    simp only [List.foldl_cons, ih, mem_foldl_insertTag, List.mem_cons]
    constructor
    · rintro ((h | h) | ⟨q, hq, hxq⟩)
      · exact Or.inl h
      · exact Or.inr ⟨p, Or.inl rfl, h⟩
      · exact Or.inr ⟨q, Or.inr hq, hxq⟩
    · rintro (h | ⟨q, (hq | hq), hxq⟩)
      · exact Or.inl (Or.inl h)
      · exact Or.inl (Or.inr (hq ▸ hxq))
      · exact Or.inr ⟨q, hq, hxq⟩

theorem collectTags_nodup (posts : List BlogPost) : (collectTags posts).Nodup := by
  unfold collectTags
  suffices h : ∀ acc : List (List Char), acc.Nodup →
      (posts.foldl (fun acc p => p.tags.foldl insertTag acc) acc).Nodup from
    h [] List.nodup_nil
  induction posts with
  | nil => exact fun acc h => h
  | cons p ps ih =>
    intro acc hacc
    exact ih _ (foldl_insertTag_nodup p.tags acc hacc)

theorem strLt_asymm (a b : List Char) (h : strLt a b = true) : strLt b a = false := by
  induction a generalizing b with
  | nil => cases b <;> simp [strLt] at h ⊢
  | cons c s ih =>
    cases b with
    | nil => simp [strLt] at h
    | cons d t =>
      unfold strLt at h ⊢
      split at h
      · rename_i hlt
        rw [if_neg (by omega), if_pos hlt]
      · split at h
        · exact absurd h (by simp)
        · rename_i h1 h2
          rw [if_neg h2, if_neg h1]
          exact ih t h

theorem sortedAscStr_cons (a : List Char) (l : List (List Char)) :
    sortedAscStr (a :: l) = true ↔
      (∀ b, l.head? = some b → strLt b a = false) ∧ sortedAscStr l = true := by
  cases l with
  | nil => simp [sortedAscStr]
  | cons b bs =>
    simp only [sortedAscStr, Bool.and_eq_true, Bool.not_eq_true', List.head?_cons]
    constructor
    · rintro ⟨h1, h2⟩
      exact ⟨fun z hz => by injection hz with hz; rwa [← hz], h2⟩
    · rintro ⟨h1, h2⟩
      exact ⟨h1 b rfl, h2⟩

theorem insertSortedStr_head (x : List Char) (l : List (List Char)) :
    (insertSortedStr x l).head? = some x ∨ (insertSortedStr x l).head? = l.head? := by
  cases l with
  | nil => left; rfl
  | cons y ys =>
    unfold insertSortedStr
    split
    · right; rfl
    · left; rfl

theorem insertSortedStr_sorted (x : List Char) (l : List (List Char))
    (h : sortedAscStr l = true) : sortedAscStr (insertSortedStr x l) = true := by
  induction l with
  | nil => rfl
  | cons y ys ih =>
    rw [sortedAscStr_cons] at h
    unfold insertSortedStr
    split
    · rename_i hlt
      rw [sortedAscStr_cons]
      refine ⟨fun z hz => ?_, ih h.2⟩
      rcases insertSortedStr_head x ys with hh | hh
      · rw [hh] at hz
        injection hz with hz
        rw [← hz]
        exact strLt_asymm y x hlt
      · rw [hh] at hz
        exact h.1 z hz
    · rename_i hng
      rw [sortedAscStr_cons]
      exact ⟨fun z hz => by injection hz with hz; rw [← hz]; simpa using hng,
             by rw [sortedAscStr_cons]; exact h⟩

theorem insertSortedStr_perm (x : List Char) (l : List (List Char)) :
    (insertSortedStr x l).Perm (x :: l) := by
  induction l with
  | nil => exact List.Perm.refl _
  | cons y ys ih =>
    unfold insertSortedStr
    split
    · exact ((ih.cons y).trans (List.Perm.swap x y ys))
    · exact List.Perm.refl _

theorem sortStrings_perm (l : List (List Char)) : (sortStrings l).Perm l := by
  induction l with
  | nil => exact List.Perm.refl _
  | cons x xs ih =>
    unfold sortStrings at ih ⊢
    simp only [List.foldr_cons]
    exact (insertSortedStr_perm x _).trans (ih.cons x)

theorem sortStrings_sorted (l : List (List Char)) : sortedAscStr (sortStrings l) = true := by
  induction l with
  | nil => rfl
  | cons x xs ih =>
    unfold sortStrings at ih ⊢
    simp only [List.foldr_cons]
    exact insertSortedStr_sorted x _ ih

/-- C5: `getAllTags` returns exactly the tags occurring across all records,
with no duplicates, sorted lexicographically ascending. -/
theorem c5_getAllTags_dedup_sorted (posts : List BlogPost) :
    (∀ t, t ∈ getAllTags posts ↔ ∃ p ∈ posts, t ∈ p.tags)
    ∧ (getAllTags posts).Nodup
    ∧ sortedAscStr (getAllTags posts) = true := by
  unfold getAllTags
  refine ⟨fun t => ?_, ?_, sortStrings_sorted _⟩
  · rw [(sortStrings_perm (collectTags posts)).mem_iff]
    exact mem_collectTags posts t
  · exact ((sortStrings_perm (collectTags posts)).nodup_iff).mpr (collectTags_nodup posts)

/-- C5 (witness): the tag set of the two sample records, evaluated: the tag
`run` occurs, and the output is duplicate-free and sorted. -/
theorem c5_getAllTags_dedup_sorted_witness :
    (['r', 'u', 'n'] ∈ getAllTags [samplePostA, samplePostB] ↔
      ∃ p ∈ [samplePostA, samplePostB], ['r', 'u', 'n'] ∈ p.tags)
    ∧ (getAllTags [samplePostA, samplePostB]).Nodup
    ∧ sortedAscStr (getAllTags [samplePostA, samplePostB]) = true :=
  ⟨(c5_getAllTags_dedup_sorted [samplePostA, samplePostB]).1 ['r', 'u', 'n'],
   (c5_getAllTags_dedup_sorted [samplePostA, samplePostB]).2.1,
   (c5_getAllTags_dedup_sorted [samplePostA, samplePostB]).2.2⟩

theorem cmpGt_asymm (a b : BlogPost) (h : cmpGt a b = true) : cmpGt b a = false := by
  unfold cmpGt at h ⊢
  rcases ha : jsDateValue a.date with _ | ta <;> rcases hb : jsDateValue b.date with _ | tb <;>
      simp [ha, hb] at h ⊢ <;> omega

theorem sortedDesc_cons (x : BlogPost) (l : List BlogPost) :
    sortedDesc (x :: l) = true ↔
      (∀ y, l.head? = some y → cmpGt x y = false) ∧ sortedDesc l = true := by
  cases l with
  | nil => simp [sortedDesc]
  | cons y ys =>
    simp only [sortedDesc, Bool.and_eq_true, Bool.not_eq_true', List.head?_cons]
    constructor
    · rintro ⟨h1, h2⟩
      exact ⟨fun z hz => by injection hz with hz; rwa [← hz], h2⟩
    · rintro ⟨h1, h2⟩
      exact ⟨h1 y rfl, h2⟩

theorem insertPostDesc_head (x : BlogPost) (l : List BlogPost) :
    (insertPostDesc x l).head? = some x ∨ (insertPostDesc x l).head? = l.head? := by
  cases l with
  | nil => left; rfl
  | cons y ys =>
    unfold insertPostDesc
    split
    · right; rfl
    · left; rfl

theorem insertPostDesc_sorted (x : BlogPost) (l : List BlogPost)
    (h : sortedDesc l = true) : sortedDesc (insertPostDesc x l) = true := by
  induction l with
  | nil => rfl
  | cons y ys ih =>
    rw [sortedDesc_cons] at h
    unfold insertPostDesc
    split
    · rename_i hgt
      rw [sortedDesc_cons]
      refine ⟨fun z hz => ?_, ih h.2⟩
      rcases insertPostDesc_head x ys with hh | hh
      · rw [hh] at hz
        injection hz with hz
        rw [← hz]
        exact cmpGt_asymm x y hgt
      · rw [hh] at hz
        exact h.1 z hz
    · rename_i hng
      rw [sortedDesc_cons]
      exact ⟨fun z hz => by injection hz with hz; rw [← hz]; simpa using hng,
             by rw [sortedDesc_cons]; exact h⟩

theorem insertPostDesc_perm (x : BlogPost) (l : List BlogPost) :
    (insertPostDesc x l).Perm (x :: l) := by
  induction l with
  | nil => exact List.Perm.refl _
  | cons y ys ih =>
    unfold insertPostDesc
    split
    · exact ((ih.cons y).trans (List.Perm.swap x y ys))
    · exact List.Perm.refl _

theorem sortByDateCore_perm (l : List BlogPost) : (sortByDateCore l).Perm l := by
  induction l with
  | nil => exact List.Perm.refl _
  | cons x xs ih =>
    unfold sortByDateCore at ih ⊢
    simp only [List.foldr_cons]
    exact (insertPostDesc_perm x _).trans (ih.cons x)

theorem sortByDateCore_sorted (l : List BlogPost) : sortedDesc (sortByDateCore l) = true := by
  induction l with
  | nil => rfl
  | cons x xs ih =>
    unfold sortByDateCore at ih ⊢
    simp only [List.foldr_cons]
    exact insertPostDesc_sorted x _ ih

/-- C7: `sortPostsByDate` returns a new sequence that is sorted by date
descending and holds exactly the input's records, and it does not modify its
input: the caller's array after the call is the original sequence, element
for element. -/
theorem c7_sortByDate_pure (posts : List BlogPost) :
    sortedDesc (sortPostsByDate posts) = true
    ∧ (sortPostsByDate posts).Perm posts
    ∧ (sortPostsByDateCall posts).2 = posts :=
  ⟨sortByDateCore_sorted posts, sortByDateCore_perm posts, rfl⟩

/-- C6: `sortPostsByDate` is idempotent: on a sequence of records with
parseable dates that is already sorted by date descending it returns a
sequence identical to its input. -/
theorem c6_sortByDate_idempotent (posts : List BlogPost)
    (hparse : ∀ p ∈ posts, (jsDateValue p.date).isSome = true)
    (hsorted : sortedDesc posts = true) :
    sortPostsByDate posts = posts := by
  clear hparse
  unfold sortPostsByDate sortByDateCore
  induction posts with
  | nil => rfl
  | cons x xs ih =>
    rw [sortedDesc_cons] at hsorted
    simp only [List.foldr_cons]
    rw [show xs.foldr insertPostDesc [] = xs from ih hsorted.2]
    cases xs with
    | nil => rfl
    | cons y ys =>
      unfold insertPostDesc
      rw [if_neg]
      simp [hsorted.1 y rfl]

/-- C6 (witness): the two sample records, dated 2024-02-01 and 2024-01-01,
have parseable dates, are sorted descending, and re-sorting returns the
identical sequence. -/
theorem c6_sortByDate_idempotent_witness :
    (∀ p ∈ [samplePostA, samplePostB], (jsDateValue p.date).isSome = true)
    ∧ sortedDesc [samplePostA, samplePostB] = true
    ∧ sortPostsByDate [samplePostA, samplePostB] = [samplePostA, samplePostB] :=
  ⟨by decide, by decide,
   c6_sortByDate_idempotent [samplePostA, samplePostB] (by decide) (by decide)⟩
theorem codeBlocksAux_id (s : List Char) (h : ∀ c ∈ s, c ≠ backtick) :
    codeBlocksAux none 0 s = s := by
  induction s with
  | nil => rfl
  | cons c rest ih =>
    simp only [codeBlocksAux]
    rw [if_neg (h c (List.mem_cons_self c rest))]
    show List.replicate 0 backtick ++ c :: codeBlocksAux none 0 rest = c :: rest
    rw [ih (fun d hd => h d (List.mem_cons_of_mem c hd))]
    rfl

theorem inlineCodeAux_id (s : List Char) (h : ∀ c ∈ s, c ≠ backtick) :
    inlineCodeAux none s = s := by
  induction s with
  | nil => rfl
  | cons c rest ih =>
    simp only [inlineCodeAux]
    rw [if_neg (h c (List.mem_cons_self c rest))]
    show c :: inlineCodeAux none rest = c :: rest
    rw [ih (fun d hd => h d (List.mem_cons_of_mem c hd))]

theorem imageAux_id (s : List Char) (h : ∀ c ∈ s, c ≠ '!') :
    imageAux .normal s = s := by
  induction s with
  | nil => rfl
  | cons c rest ih =>
    rw [imageAux.eq_def]
    split
    case h_3 a b c2 rest2 hnm heq1 heq2 =>
      injection heq2 with h1 h2
      subst h1
      subst h2
      rw [ih (fun d hd => h d (List.mem_cons_of_mem c hd))]
    all_goals simp_all

theorem linkAux_id (s : List Char) (h : ∀ c ∈ s, c ≠ '[') :
    linkAux .normal s = s := by
  induction s with
  | nil => rfl
  | cons c rest ih =>
    rw [linkAux.eq_def]
    split
    case h_3 a b c2 rest2 hnm heq1 heq2 =>
      injection heq2 with h1 h2
      subst h1
      subst h2
      rw [ih (fun d hd => h d (List.mem_cons_of_mem c hd))]
    all_goals simp_all

theorem headingsAux_id (s : List Char) (h : ∀ c ∈ s, c ≠ '#') :
    headingsAux 0 s = s := by
  induction s with
  | nil => rfl
  | cons c rest ih =>
    simp only [headingsAux]
    rw [if_neg (h c (List.mem_cons_self c rest)), if_pos trivial]
    rw [ih (fun d hd => h d (List.mem_cons_of_mem c hd))]

theorem emphasisAux_id (s : List Char) (h : ∀ c ∈ s, isEmChar c = false) :
    emphasisAux .normal s = s := by
  induction s with
  | nil => rfl
  | cons c rest ih =>
    rw [emphasisAux.eq_def]
    split
    case h_2 a b c2 rest2 heq1 heq2 =>
      injection heq2 with h1 h2
      subst h1
      subst h2
      rw [if_neg (by rw [h c (List.mem_cons_self c rest)]; exact Bool.false_ne_true)]
      rw [ih (fun d hd => h d (List.mem_cons_of_mem c hd))]
    all_goals simp_all

theorem newlinesToSpaces_id (s : List Char) (h : ∀ c ∈ s, c ≠ '\n') :
    newlinesToSpaces s = s := by
  induction s with
  | nil => rfl
  | cons c rest ih =>
    unfold newlinesToSpaces at ih ⊢
    simp only [List.map_cons]
    rw [if_neg (h c (List.mem_cons_self c rest))]
    rw [ih (fun d hd => h d (List.mem_cons_of_mem c hd))]

theorem benign_spec (c : Char) (h : isBenign c = true) :
    c ≠ backtick ∧ c ≠ '[' ∧ c ≠ '!' ∧ c ≠ '#' ∧ isEmChar c = false ∧ c ≠ '\n' := by
  unfold isBenign isLineTerm at h
  unfold isEmChar
  simp only [Bool.not_eq_true', Bool.or_eq_false_iff, decide_eq_false_iff_not] at h
  simp only [Bool.or_eq_false_iff, decide_eq_false_iff_not]
  tauto

theorem stripMarkdown_id (s : List Char) (h : ∀ c ∈ s, isBenign c = true) :
    stripMarkdown s = s := by
  have hs : ∀ c ∈ s, c ≠ backtick ∧ c ≠ '[' ∧ c ≠ '!' ∧ c ≠ '#' ∧
      isEmChar c = false ∧ c ≠ '\n' := fun c hc => benign_spec c (h c hc)
  unfold stripMarkdown removeCodeBlocks removeInlineCode removeImages removeLinks
    removeHeadings removeEmphasis
  rw [codeBlocksAux_id s (fun c hc => (hs c hc).1),
      inlineCodeAux_id s (fun c hc => (hs c hc).1),
      imageAux_id s (fun c hc => (hs c hc).2.2.1),
      linkAux_id s (fun c hc => (hs c hc).2.1),
      headingsAux_id s (fun c hc => (hs c hc).2.2.2.1),
      emphasisAux_id s (fun c hc => (hs c hc).2.2.2.2.1),
      newlinesToSpaces_id s (fun c hc => (hs c hc).2.2.2.2.2)]

theorem cjk_benign (c : Char) (h : isCJK c = true) : isBenign c = true := by
  unfold isCJK at h
  rw [Bool.and_eq_true, decide_eq_true_eq, decide_eq_true_eq] at h
  have hne : ∀ d : Char, d.toNat < 0x4e00 → ¬(c = d) := by
    intro d hd he
    rw [he] at h
    omega
  have e1 := hne backtick (by decide)
  have e2 := hne '[' (by decide)
  have e3 := hne '!' (by decide)
  have e4 := hne '#' (by decide)
  have e5 := hne '*' (by decide)
  have e6 := hne '_' (by decide)
  have e7 := hne '\n' (by decide)
  have e8 := hne (Char.ofNat 0x0d) (by decide)
  have e9 := hne (Char.ofNat 0x2028) (by decide)
  have e10 := hne (Char.ofNat 0x2029) (by decide)
  unfold isBenign isLineTerm
  simp only [Bool.not_eq_true', Bool.or_eq_false_iff, decide_eq_false_iff_not]
  tauto

theorem word_benign (c : Char) (h : (isAsciiWordChar c || c = ' ') = true) :
    isBenign c = true := by
  rw [Bool.or_eq_true] at h
  have hr : (97 ≤ c.toNat ∧ c.toNat ≤ 122) ∨ (65 ≤ c.toNat ∧ c.toNat ≤ 90) ∨
      (48 ≤ c.toNat ∧ c.toNat ≤ 57) ∨ c.toNat = 32 := by
    rcases h with h | h
    · unfold isAsciiWordChar at h
      simp only [Bool.or_eq_true, Bool.and_eq_true, decide_eq_true_eq] at h
      tauto
    · rw [decide_eq_true_eq] at h
      rw [h]
      exact Or.inr (Or.inr (Or.inr rfl))
  have hne : ∀ d : Char, (d.toNat < 32 ∨ 32 < d.toNat ∧ d.toNat < 48 ∨ 57 < d.toNat ∧
      d.toNat < 65 ∨ 90 < d.toNat ∧ d.toNat < 97 ∨ 122 < d.toNat) → ¬(c = d) := by
    intro d hd he
    rw [he] at hr
    omega
  have e1 := hne backtick (by decide)
  have e2 := hne '[' (by decide)
  have e3 := hne '!' (by decide)
  have e4 := hne '#' (by decide)
  have e5 := hne '*' (by decide)
  have e6 := hne '_' (by decide)
  have e7 := hne '\n' (by decide)
  have e8 := hne (Char.ofNat 0x0d) (by decide)
  have e9 := hne (Char.ofNat 0x2028) (by decide)
  have e10 := hne (Char.ofNat 0x2029) (by decide)
  unfold isBenign isLineTerm
  simp only [Bool.not_eq_true', Bool.or_eq_false_iff, decide_eq_false_iff_not]
  tauto

theorem word_not_cjk (c : Char) (h : (isAsciiWordChar c || c = ' ') = true) :
    isCJK c = false := by
  rw [Bool.or_eq_true] at h
  unfold isCJK
  simp only [Bool.and_eq_false_iff, decide_eq_false_iff_not]
  rcases h with h | h
  · unfold isAsciiWordChar at h
    simp only [Bool.or_eq_true, Bool.and_eq_true, decide_eq_true_eq] at h
    left
    omega
  · rw [decide_eq_true_eq] at h
    left
    rw [h]
    decide

theorem cjkOnly_counts (s : List Char) (h : cjkOnly s = true) :
    cjkCount s = s.length ∧ removeCJK s = [] := by
  unfold cjkOnly at h
  rw [List.all_eq_true] at h
  constructor
  · unfold cjkCount
    rw [List.filter_eq_self.mpr h]
  · unfold removeCJK
    rw [List.filter_eq_nil_iff]
    intro c hc
    simp [h c hc]

theorem wordOnly_counts (s : List Char) (h : wordOnly s = true) :
    cjkCount s = 0 ∧ removeCJK s = s := by
  unfold wordOnly at h
  rw [List.all_eq_true] at h
  constructor
  · unfold cjkCount
    rw [List.filter_eq_nil_iff.mpr (fun c hc => by simp [word_not_cjk c (h c hc)])]
    rfl
  · unfold removeCJK
    rw [List.filter_eq_self.mpr (fun c hc => by simp [word_not_cjk c (h c hc)])]

theorem countTokens_append_le (s u : List Char) :
    ∀ b, countTokens b s ≤ countTokens b (s ++ u) := by
  induction s with
  | nil =>
    intro b
    exact Nat.zero_le _
  | cons c rest ih =>
    intro b
    simp only [List.cons_append, countTokens]
    split
    · exact ih false
    · split
      · exact ih true
      · exact Nat.add_le_add_left (ih true) 1

theorem readingFormula_mono (c1 w1 c2 w2 : ℕ) (hc : c1 ≤ c2) (hw : w1 ≤ w2) :
    max 1 ((5 * c1 + 4 * w1 + 999) / 1000) ≤ max 1 ((5 * c2 + 4 * w2 + 999) / 1000) :=
  max_le_max le_rfl (Nat.div_le_div_right (by omega))

/-- C8: the reading-time estimate is monotonically non-decreasing in text
length for fixed-language text: when a CJK-only text extends a CJK-only
text, or a space-delimited-word-only text extends one, the longer text never
yields a smaller estimate. -/
theorem c8_reading_time_monotone (s u : List Char)
    (h : (cjkOnly s = true ∧ cjkOnly (s ++ u) = true) ∨
         (wordOnly s = true ∧ wordOnly (s ++ u) = true)) :
    calculateReadingTime s ≤ calculateReadingTime (s ++ u) := by
  rw [calculateReadingTime_eq, calculateReadingTime_eq]
  rcases h with ⟨h1, h2⟩ | ⟨h1, h2⟩
  · have hb1 : ∀ c ∈ s, isBenign c = true := fun c hc =>
      cjk_benign c (List.all_eq_true.mp h1 c hc)
    have hb2 : ∀ c ∈ s ++ u, isBenign c = true := fun c hc =>
      cjk_benign c (List.all_eq_true.mp h2 c hc)
    rw [stripMarkdown_id s hb1, stripMarkdown_id _ hb2]
    obtain ⟨hc1, hr1⟩ := cjkOnly_counts s h1
    obtain ⟨hc2, hr2⟩ := cjkOnly_counts _ h2
    rw [hc1, hc2, hr1, hr2]
    refine readingFormula_mono _ _ _ _ ?_ le_rfl
    rw [List.length_append]
    omega
  · have hb1 : ∀ c ∈ s, isBenign c = true := fun c hc =>
      word_benign c (List.all_eq_true.mp h1 c hc)
    have hb2 : ∀ c ∈ s ++ u, isBenign c = true := fun c hc =>
      word_benign c (List.all_eq_true.mp h2 c hc)
    rw [stripMarkdown_id s hb1, stripMarkdown_id _ hb2]
    obtain ⟨hc1, hr1⟩ := wordOnly_counts s h1
    obtain ⟨hc2, hr2⟩ := wordOnly_counts _ h2
    rw [hc1, hc2, hr1, hr2]
    exact readingFormula_mono _ _ _ _ le_rfl (countTokens_append_le s u false)

/-- C8 (witness): the CJK-only text `你` extended to `你好`, with the
estimate not decreasing. -/
theorem c8_reading_time_monotone_witness :
    cjkOnly (String.toList "你") = true
    ∧ cjkOnly (String.toList "你" ++ String.toList "好") = true
    ∧ calculateReadingTime (String.toList "你") ≤
        calculateReadingTime (String.toList "你" ++ String.toList "好") :=
  ⟨by decide, by decide, c8_reading_time_monotone _ _ (Or.inl ⟨by decide, by decide⟩)⟩
